import Mathlib

/-!
Verification of the BitNet quantized linear layer (`mybitnet/bitnet.py`).

Tensors are modelled as `List (List ℚ)` (a batch of rows for activations,
`[out_features, in_features]` for weights); real arithmetic is modelled by
exact rational arithmetic.  `torch.round` rounds half to even, modelled by
`roundTorch`.  `.detach()` only affects gradients, so in the forward
(value-level) semantics an STE site `(q - s).detach() + s` is the rational
expression `(q - s) + s`.
-/

section BitNetVerification

-- The Batteries rational-arithmetic primitives are sealed; re-open them so
-- concrete rational computations can be settled by kernel reduction.
attribute [local semireducible] Rat.add Rat.mul Rat.inv Rat.sub

/-- Forward value of the straight-through-estimator pattern
`(q - s).detach() + s`: `.detach()` is the identity on values. -/
def ste (q s : ℚ) : ℚ := (q - s) + s

/-- `torch.clamp(v, lo, hi)`. -/
def rclamp (v lo hi : ℚ) : ℚ := min (max v lo) hi

/-- `torch.round`: round to nearest integer, ties to even. -/
def roundTorch (q : ℚ) : ℤ :=
  if Int.fract q = 1/2 then (if ⌊q⌋ % 2 = 0 then ⌊q⌋ else ⌊q⌋ + 1) else round q

/-- Maximum of a list of rationals (`torch.max` / `amax`); `0` on `[]`
(torch raises there, every use below is on nonempty data). -/
def lmax : List ℚ → ℚ
  | [] => 0
  | [a] => a
  | a :: b :: r => max a (lmax (b :: r))

/-- Minimum of a list of rationals (`torch.min`); `0` on `[]`. -/
def lmin : List ℚ → ℚ
  | [] => 0
  | [a] => a
  | a :: b :: r => min a (lmin (b :: r))

/-- Global maximum over a 2-D tensor. -/
def gmax (m : List (List ℚ)) : ℚ := lmax m.flatten

/-- Global minimum over a 2-D tensor. -/
def gmin (m : List (List ℚ)) : ℚ := lmin m.flatten

/-- Elementwise absolute value (`tensor.abs()`). -/
def tabs (m : List (List ℚ)) : List (List ℚ) := m.map (List.map (fun v => |v|))

/-- Sum of all entries of a 2-D tensor. -/
def msum (m : List (List ℚ)) : ℚ := (m.map (fun r => r.sum)).sum

/-- Number of entries of a 2-D tensor (`tensor.numel()`). -/
def numel (m : List (List ℚ)) : ℕ := (m.map List.length).sum

/-- `tensor.mean()` over all entries. -/
def tmean (m : List (List ℚ)) : ℚ := msum m / (numel m : ℚ)

/-- Dot product of two rows. -/
def dot (a b : List ℚ) : ℚ := (List.zipWith (fun u v => u * v) a b).sum

/-- `torch.nn.functional.linear(x, w, bias)`: `x` is `[batch, in]`,
`w` is `[out, in]`, result is `[batch, out]` with optional bias add. -/
def functionalLinear (x w : List (List ℚ)) (bias : Option (List ℚ)) :
    List (List ℚ) :=
  x.map (fun row =>
    match bias with
    | none => w.map (fun wr => dot row wr)
    | some bl => List.zipWith (fun wr bv => dot row wr + bv) w bl)

/-- Fueled Newton iteration for integer square root. -/
def isqrtIter (n : ℕ) : ℕ → ℕ → ℕ
  | 0, guess => guess
  | fuel + 1, guess =>
      let next := (guess + n / guess) / 2
      if next < guess then isqrtIter n fuel next else guess

/-- Integer square root (64 Newton steps from `n / 2` always suffice for the
inputs used here; exact on perfect squares). -/
def isqrt (n : ℕ) : ℕ := if n ≤ 1 then n else isqrtIter n 64 (n / 2)

/-- Rational square root, exact whenever the numerator and denominator of the
reduced fraction are perfect squares (every concrete input below is chosen
so); models the external real `sqrt` of the normalizer. -/
def ratSqrt (q : ℚ) : ℚ := (isqrt q.num.toNat : ℚ) / (isqrt q.den : ℚ)

/-- `torch.nn.LayerNorm(F, elementwise_affine=False)` applied to one row:
`(x - mean) / sqrt(var + eps)` with biased variance, no learned affine. -/
def layerNormRow (eps : ℚ) (row : List ℚ) : List ℚ :=
  let mu := row.sum / (row.length : ℚ)
  let centered := row.map (fun v => v - mu)
  let varB := (centered.map (fun v => v ^ 2)).sum / (row.length : ℚ)
  centered.map (fun v => v / ratSqrt (varB + eps))

/-- Per-entry symmetric absmax quantization step used by
`BitLinear.absmax_quantize` (pattern 1) and `BitLinear158b.absmax_quantize`:
scale by `Qb / gamma`, round, clamp to `[-Qb, Qb-1]`, then the STE wrap. -/
def symEntry (Qb gamma v : ℚ) : ℚ :=
  ste (rclamp ((roundTorch (v * Qb / gamma) : ℤ) : ℚ) (-Qb) (Qb - 1))
    (v * Qb / gamma)

/-- Per-entry shifted absmax quantization step used by
`BitLinear.absmax_quantize` (pattern 2): shift by `eta`, scale, round,
clamp to `[0, Qb-1]`, then the STE wrap. -/
def shiftEntry (Qb gamma eta v : ℚ) : ℚ :=
  ste (rclamp ((roundTorch ((v - eta) * Qb / gamma) : ℤ) : ℚ) 0 (Qb - 1))
    ((v - eta) * Qb / gamma)

/-- `BitLinear.absmax_quantize`: the activation quantizer of the binary
variant.  `flg` is `self.flg_before_linear`;
pattern 1 scales to `[-Qb, Qb-1]` with a global `gamma = max |x|` floored at
`epsilon`; pattern 2 shifts by `eta = min x` and scales to `[0, Qb-1]`.
Returns the STE-wrapped quantized tensor and `gamma`. -/
def BitLinear.absmax_quantize (flg : Bool) (x : List (List ℚ)) (Qb : ℚ)
    (epsilon : ℚ) : List (List ℚ) × ℚ :=
  if flg then
    let gamma := max (gmax (tabs x)) epsilon
    (x.map (List.map (symEntry Qb gamma)), gamma)
  else
    let eta := gmin x
    let gamma := max (gmax (tabs (x.map (List.map (fun v => v - eta)))))
      epsilon
    (x.map (List.map (shiftEntry Qb gamma eta)), gamma)

/-- `BitLinear.custom_sign`: `(x > 0).to(int8) * 2 - 1`, i.e. `+1` for
positive inputs and `-1` for non-positive ones (zero maps to `-1`). -/
def BitLinear.custom_sign (x : ℚ) : ℚ := (if 0 < x then 1 else 0) * 2 - 1

/-- `BitLinear.quantize_weights`: mean-center, binarize with `custom_sign`,
`beta = weight.abs().mean()` (no epsilon floor), STE wrap against
`weight_centered / max(|weight_centered|, epsilon)`. -/
def BitLinear.quantize_weights (weight : List (List ℚ)) (epsilon : ℚ) :
    List (List ℚ) × ℚ :=
  let alpha := tmean weight
  let beta := tmean (tabs weight)
  let scaleDen :=
    max (gmax (tabs (weight.map (List.map (fun v => v - alpha))))) epsilon
  (weight.map (List.map (fun v =>
    ste (BitLinear.custom_sign (v - alpha)) ((v - alpha) / scaleDen))), beta)

/-- Configuration state set up by `BitLinear.__init__`. -/
structure BitLinearCfg where
  in_features : ℤ
  out_features : ℤ
  bias : Bool
  bits : ℤ
  Qb : ℚ
  flg_before_linear : Bool
  epsilon : ℚ
  deriving DecidableEq

/-- `BitLinear.__init__(in_features, out_features, bias, rms_norm_eps, bits,
flg_before_linear)`: stores the fields, sets `Qb = 2 ** (bits - 1)` and
hardcodes `self.epsilon = 1e-6`; `rms_norm_eps` is accepted but used
nowhere (the LayerNorm is built with its default eps `1e-5`).  No argument
validation of any kind is performed. -/
def BitLinear.init (in_features out_features : ℤ) (bias : Bool)
    (rms_norm_eps : ℚ) (bits : ℤ) (flg_before_linear : Bool) : BitLinearCfg :=
  { in_features := in_features
    out_features := out_features
    bias := bias
    bits := bits
    Qb := (2 : ℚ) ^ (bits - 1)
    flg_before_linear := flg_before_linear
    epsilon := 1 / 1000000 }

/-- `BitLinear.forward`: LayerNorm (eps `1e-5`), absmax-quantize the
normalized input, quantize the stored weight, `F.linear`, then rescale by
`beta * gamma / Qb`. -/
def BitLinear.forward (cfg : BitLinearCfg) (weight : List (List ℚ))
    (bias : Option (List ℚ)) (x : List (List ℚ)) : List (List ℚ) :=
  let x_norm := x.map (layerNormRow (1 / 100000))
  let xq := BitLinear.absmax_quantize cfg.flg_before_linear x_norm cfg.Qb
    cfg.epsilon
  let wq := BitLinear.quantize_weights weight cfg.epsilon
  let x_matmul := functionalLinear xq.1 wq.1 bias
  x_matmul.map (List.map (fun v => v * (wq.2 * xq.2 / cfg.Qb)))

/-- `BitLinear158b.quantize_weights`: `beta = weight.abs().mean()` floored
at `epsilon`, trinarize by `clamp(round(weight / beta), -1, 1)`, STE wrap
against the raw weight. -/
def BitLinear158b.quantize_weights (weight : List (List ℚ)) (epsilon : ℚ) :
    List (List ℚ) × ℚ :=
  let beta := max (tmean (tabs weight)) epsilon
  (weight.map (List.map (fun v =>
    ste (rclamp ((roundTorch (v / beta) : ℤ) : ℚ) (-1) 1) v)), beta)

/-- `BitLinear158b.absmax_quantize`: per-row `gamma = amax |row|` floored at
`epsilon` (`amax(dim=-1, keepdim=True)`), otherwise the symmetric scheme;
returns the quantized tensor and the per-row `gamma` column. -/
def BitLinear158b.absmax_quantize (x : List (List ℚ)) (Qb : ℚ)
    (epsilon : ℚ) : List (List ℚ) × List ℚ :=
  let gammas := x.map (fun row => max (lmax (row.map (fun v => |v|))) epsilon)
  (List.zipWith (fun row g => row.map (symEntry Qb g)) x gammas, gammas)

/-- Configuration state set up by `BitLinear158b.__init__` (the parent
constructor followed by `del self.flg_before_linear`). -/
structure BitLinear158bCfg where
  in_features : ℤ
  out_features : ℤ
  bias : Bool
  bits : ℤ
  Qb : ℚ
  epsilon : ℚ
  deriving DecidableEq

/-- `BitLinear158b.__init__`: delegates to `BitLinear.__init__` (passing
`rms_norm_eps` along, still unused) and deletes `flg_before_linear`. -/
def BitLinear158b.init (in_features out_features : ℤ) (bias : Bool)
    (rms_norm_eps : ℚ) (bits : ℤ) : BitLinear158bCfg :=
  let base := BitLinear.init in_features out_features bias rms_norm_eps bits
    true
  { in_features := base.in_features
    out_features := base.out_features
    bias := base.bias
    bits := base.bits
    Qb := base.Qb
    epsilon := base.epsilon }

/-- `BitLinear158b.forward` is inherited from `BitLinear` but dispatches to
the overridden quantizers; the per-row `gamma` column broadcasts over the
matmul result row by row. -/
def BitLinear158b.forward (cfg : BitLinear158bCfg) (weight : List (List ℚ))
    (bias : Option (List ℚ)) (x : List (List ℚ)) : List (List ℚ) :=
  let x_norm := x.map (layerNormRow (1 / 100000))
  let xq := BitLinear158b.absmax_quantize x_norm cfg.Qb cfg.epsilon
  let wq := BitLinear158b.quantize_weights weight cfg.epsilon
  let x_matmul := functionalLinear xq.1 wq.1 bias
  List.zipWith (fun row g => row.map (fun v => v * (wq.2 * g / cfg.Qb)))
    x_matmul xq.2

/-- Modelled from the spec: the unquantized reference output of the layer —
the forward pipeline with both quantizers removed (LayerNorm followed by the
dense linear map), used by the bit-width error-monotonicity property. -/
def referenceForward (weight : List (List ℚ)) (bias : Option (List ℚ))
    (x : List (List ℚ)) : List (List ℚ) :=
  functionalLinear (x.map (layerNormRow (1 / 100000))) weight bias

/-- Mean absolute difference of two equally-shaped tensors. -/
def meanAbsDiff (a b : List (List ℚ)) : ℚ :=
  msum (List.zipWith (List.zipWith (fun u v => |u - v|)) a b) / (numel a : ℚ)

/-- Modelled from the spec: the undecorated symmetric quantized activation
entry (round then clamp to `[-Qb, Qb-1]`), before STE wrapping. -/
def rawSymQuant (Qb gamma v : ℚ) : ℚ :=
  rclamp ((roundTorch (v * Qb / gamma) : ℤ) : ℚ) (-Qb) (Qb - 1)

/-- Modelled from the spec: the undecorated shifted quantized activation
entry (shift by `eta`, round, clamp to `[0, Qb-1]`), before STE wrapping. -/
def rawShiftQuant (Qb gamma eta v : ℚ) : ℚ :=
  rclamp ((roundTorch ((v - eta) * Qb / gamma) : ℤ) : ℚ) 0 (Qb - 1)

/-- Modelled from the spec: the undecorated trinarized weight entry
`clamp(round(v / beta), -1, 1)`, before STE wrapping. -/
def rawTrinarize (beta v : ℚ) : ℚ :=
  rclamp ((roundTorch (v / beta) : ℤ) : ℚ) (-1) 1

lemma ste_id (q s : ℚ) : ste q s = q := by
  simp [ste]

lemma symEntry_eq_raw (Qb g : ℚ) : symEntry Qb g = rawSymQuant Qb g := by
  funext v
  simp [symEntry, rawSymQuant, ste_id]

lemma custom_sign_cases (x : ℚ) :
    (0 < x ∧ BitLinear.custom_sign x = 1) ∨
      (x ≤ 0 ∧ BitLinear.custom_sign x = -1) := by
  by_cases h : 0 < x
  · exact Or.inl ⟨h, by norm_num [BitLinear.custom_sign, h]⟩
  · exact Or.inr ⟨le_of_not_lt h, by norm_num [BitLinear.custom_sign, h]⟩

lemma rclamp_one_int (R : ℤ) :
    rclamp (R : ℚ) (-1) 1 = -1 ∨ rclamp (R : ℚ) (-1) 1 = 0 ∨
      rclamp (R : ℚ) (-1) 1 = 1 := by
  rcases show R ≤ -1 ∨ R = 0 ∨ 1 ≤ R by omega with h | h | h
  · left
    have hc : (R : ℚ) ≤ -1 := by exact_mod_cast h
    rw [rclamp, max_eq_right hc, min_eq_left (by norm_num)]
  · right; left
    subst h
    norm_num [rclamp]
  · right; right
    have hc : (1 : ℚ) ≤ (R : ℚ) := by exact_mod_cast h
    rw [rclamp, max_eq_left (by linarith), min_eq_right hc]

/-- C3: Variant A's forward quantized weight takes values only in
`{-1, +1}` (never `0`): an entry is `+1` exactly when the mean-centered
weight entry is strictly positive, and `-1` otherwise (zero maps to `-1`).
For `weight = [[2, -1], [0.5, -3]]`: `alpha = -0.375`, the centered weight
is `[[2.375, -0.625], [0.875, -2.625]]`, the binarized result is
`[[1, -1], [1, -1]]`, and `beta = 1.625`. -/
theorem variantA_binarization (w : List (List ℚ)) (epsilon : ℚ) :
    List.Forall₂ (List.Forall₂ (fun v e =>
        (e = 1 ∨ e = -1) ∧ (e = 1 ↔ tmean w < v)))
      w (BitLinear.quantize_weights w epsilon).1 ∧
    tmean [[2, -1], [1/2, -3]] = -3/8 ∧
    ([[2, -1], [1/2, -3]] : List (List ℚ)).map
        (List.map (fun v => v - tmean [[2, -1], [1/2, -3]])) =
      [[19/8, -5/8], [7/8, -21/8]] ∧
    (BitLinear.quantize_weights [[2, -1], [1/2, -3]] (1/1000000)).1 =
      [[1, -1], [1, -1]] ∧
    (BitLinear.quantize_weights [[2, -1], [1/2, -3]] (1/1000000)).2 =
      13/8 := by
  refine ⟨?_, by decide, by decide, by decide, by decide⟩
  have hrw : (BitLinear.quantize_weights w epsilon).1 =
      w.map (List.map (fun v => BitLinear.custom_sign (v - tmean w))) := by
    simp [BitLinear.quantize_weights, ste_id]
  rw [hrw]
  simp only [List.forall₂_map_right_iff, List.forall₂_same]
  intro row _ v _
  rcases custom_sign_cases (v - tmean w) with ⟨hp, he⟩ | ⟨hn, he⟩
  · exact ⟨Or.inl he, by constructor <;> intro <;> [linarith; exact he]⟩
  · refine ⟨Or.inr he, ?_⟩
    constructor
    · intro h1
      rw [he] at h1
      norm_num at h1
    · intro hlt
      exfalso
      linarith

/-- C4: Variant B's forward quantized weight equals
`clamp(round(weight / beta), -1, 1)` entrywise with
`beta = mean(|weight|)` floored at `epsilon`, so its values lie in
`{-1, 0, +1}`.  For `weight = [[2, -1], [0.5, -3]]`: `beta = 1.625` and the
trinarized result is `[[1, -1], [0, -1]]`. -/
theorem variantB_trinarization (w : List (List ℚ)) (epsilon : ℚ) :
    (BitLinear158b.quantize_weights w epsilon).2 =
      max (tmean (tabs w)) epsilon ∧
    List.Forall₂ (List.Forall₂ (fun v e =>
        e = rawTrinarize (BitLinear158b.quantize_weights w epsilon).2 v ∧
          (e = -1 ∨ e = 0 ∨ e = 1)))
      w (BitLinear158b.quantize_weights w epsilon).1 ∧
    (BitLinear158b.quantize_weights [[2, -1], [1/2, -3]] (1/1000000)).2 =
      13/8 ∧
    (BitLinear158b.quantize_weights [[2, -1], [1/2, -3]] (1/1000000)).1 =
      [[1, -1], [0, -1]] := by
  refine ⟨rfl, ?_, by decide, by decide⟩
  have hrw : (BitLinear158b.quantize_weights w epsilon).1 =
      w.map (List.map (fun v =>
        rawTrinarize (BitLinear158b.quantize_weights w epsilon).2 v)) := by
    simp [BitLinear158b.quantize_weights, ste_id, rawTrinarize]
  rw [hrw]
  simp only [List.forall₂_map_right_iff, List.forall₂_same]
  intro row _ v _
  refine ⟨by trivial, ?_⟩
  have hmem := rclamp_one_int
    (roundTorch (v / (BitLinear158b.quantize_weights w epsilon).2))
  simpa [rawTrinarize] using hmem

/-- C5: at every STE application site the wrapped result
`(q - s).detach() + s` is numerically equal to the undecorated quantized
value `q` in the forward pass: both activation quantizers and both weight
quantizers return exactly their round/clamp/sign results. -/
theorem ste_forward_value (x w : List (List ℚ)) (Qb epsilon : ℚ) :
    (∀ q s : ℚ, ste q s = q) ∧
    (BitLinear.absmax_quantize true x Qb epsilon).1 =
      x.map (List.map
        (rawSymQuant Qb (BitLinear.absmax_quantize true x Qb epsilon).2)) ∧
    (BitLinear.absmax_quantize false x Qb epsilon).1 =
      x.map (List.map
        (rawShiftQuant Qb (BitLinear.absmax_quantize false x Qb epsilon).2
          (gmin x))) ∧
    (BitLinear.quantize_weights w epsilon).1 =
      w.map (List.map (fun v => BitLinear.custom_sign (v - tmean w))) ∧
    (BitLinear158b.quantize_weights w epsilon).1 =
      w.map (List.map
        (rawTrinarize (BitLinear158b.quantize_weights w epsilon).2)) ∧
    (BitLinear158b.absmax_quantize x Qb epsilon).1 =
      List.zipWith (fun row g => row.map (rawSymQuant Qb g)) x
        (BitLinear158b.absmax_quantize x Qb epsilon).2 := by
  refine ⟨ste_id, ?_, ?_, ?_, ?_, ?_⟩
  · simp [BitLinear.absmax_quantize, symEntry, ste_id, rawSymQuant]
  · simp [BitLinear.absmax_quantize, shiftEntry, ste_id, rawShiftQuant]
  · simp [BitLinear.quantize_weights, ste_id]
  · simp [BitLinear158b.quantize_weights, ste_id, rawTrinarize]
  · simp [BitLinear158b.absmax_quantize, symEntry_eq_raw]

lemma lmax_all_zero : ∀ l : List ℚ, (∀ v ∈ l, v = 0) → lmax l = 0
  | [], _ => rfl
  | [a], h => by simpa using h a (by simp)
  | a :: b :: r, h => by
      have ha : a = 0 := h a (by simp)
      have hr : lmax (b :: r) = 0 :=
        lmax_all_zero (b :: r) (fun v hv => h v (by simp [hv]))
      simp [lmax, ha, hr]

lemma le_lmax_of_mem : ∀ {l : List ℚ} {v : ℚ}, v ∈ l → v ≤ lmax l
  | [], v, h => absurd h (List.not_mem_nil v)
  | [a], v, h => by
      have : v = a := by simpa using h
      simp [lmax, this]
  | a :: b :: r, v, h => by
      rcases List.mem_cons.mp h with rfl | h'
      · exact le_max_left _ _
      · exact le_trans (le_lmax_of_mem h') (le_max_right a (lmax (b :: r)))

lemma msum_all_zero (m : List (List ℚ)) (h : ∀ r ∈ m, ∀ v ∈ r, v = 0) :
    msum m = 0 := by
  refine List.sum_eq_zero ?_
  intro s hs
  rcases List.mem_map.mp hs with ⟨r, hr, rfl⟩
  exact List.sum_eq_zero (h r hr)

lemma tabs_all_zero (m : List (List ℚ)) (h : ∀ r ∈ m, ∀ v ∈ r, v = 0) :
    ∀ r ∈ tabs m, ∀ v ∈ r, v = 0 := by
  intro r hr v hv
  rcases List.mem_map.mp hr with ⟨r0, hr0, rfl⟩
  rcases List.mem_map.mp hv with ⟨v0, hv0, rfl⟩
  simp [h r0 hr0 v0 hv0]

lemma tmean_tabs_all_zero (m : List (List ℚ))
    (h : ∀ r ∈ m, ∀ v ∈ r, v = 0) : tmean (tabs m) = 0 := by
  simp [tmean, msum_all_zero (tabs m) (tabs_all_zero m h)]

lemma gmax_tabs_all_zero (m : List (List ℚ))
    (h : ∀ r ∈ m, ∀ v ∈ r, v = 0) : gmax (tabs m) = 0 := by
  refine lmax_all_zero _ ?_
  intro v hv
  rcases List.mem_flatten.mp hv with ⟨r, hr, hvr⟩
  exact tabs_all_zero m h r hr v hvr

lemma rclamp_int_cast (R lo hi : ℤ) :
    rclamp (R : ℚ) (lo : ℚ) (hi : ℚ) = ((min (max R lo) hi : ℤ) : ℚ) := by
  simp [rclamp]

lemma symEntry_int_range (n : ℤ) (g v : ℚ) (hn : 1 ≤ n) :
    ∃ z : ℤ, symEntry (n : ℚ) g v = (z : ℚ) ∧
      -(n : ℚ) ≤ symEntry (n : ℚ) g v ∧
      symEntry (n : ℚ) g v ≤ (n : ℚ) - 1 := by
  have hval : symEntry (n : ℚ) g v =
      ((min (max (roundTorch (v * n / g)) (-n)) (n - 1) : ℤ) : ℚ) := by
    rw [symEntry, ste_id]
    have h1 : (-(n : ℚ)) = ((-n : ℤ) : ℚ) := by push_cast; ring
    have h2 : ((n : ℚ) - 1) = ((n - 1 : ℤ) : ℚ) := by push_cast; ring
    rw [h1, h2, rclamp_int_cast]
  refine ⟨_, hval, ?_, ?_⟩
  · rw [hval]
    have : -n ≤ min (max (roundTorch (v * n / g)) (-n)) (n - 1) := by omega
    exact_mod_cast this
  · rw [hval]
    have : min (max (roundTorch (v * n / g)) (-n)) (n - 1) ≤ n - 1 :=
      min_le_right _ _
    calc ((min (max (roundTorch (v * n / g)) (-n)) (n - 1) : ℤ) : ℚ)
        ≤ ((n - 1 : ℤ) : ℚ) := by exact_mod_cast this
      _ = (n : ℚ) - 1 := by push_cast; ring

lemma shiftEntry_int_range (n : ℤ) (g eta v : ℚ) (hn : 1 ≤ n) :
    ∃ z : ℤ, shiftEntry (n : ℚ) g eta v = (z : ℚ) ∧
      0 ≤ shiftEntry (n : ℚ) g eta v ∧
      shiftEntry (n : ℚ) g eta v ≤ (n : ℚ) - 1 := by
  have hval : shiftEntry (n : ℚ) g eta v =
      ((min (max (roundTorch ((v - eta) * n / g)) 0) (n - 1) : ℤ) : ℚ) := by
    rw [shiftEntry, ste_id]
    have h0 : (0 : ℚ) = ((0 : ℤ) : ℚ) := by norm_num
    have h2 : ((n : ℚ) - 1) = ((n - 1 : ℤ) : ℚ) := by push_cast; ring
    rw [h0, h2, rclamp_int_cast]
  refine ⟨_, hval, ?_, ?_⟩
  · rw [hval]
    have : (0 : ℤ) ≤ min (max (roundTorch ((v - eta) * n / g)) 0) (n - 1) := by
      omega
    exact_mod_cast this
  · rw [hval]
    have : min (max (roundTorch ((v - eta) * n / g)) 0) (n - 1) ≤ n - 1 :=
      min_le_right _ _
    calc ((min (max (roundTorch ((v - eta) * n / g)) 0) (n - 1) : ℤ) : ℚ)
        ≤ ((n - 1 : ℤ) : ℚ) := by exact_mod_cast this
      _ = (n : ℚ) - 1 := by push_cast; ring

/-- C1 counterexample: for the all-zero weight tensor, Variant A's
`beta = weight.abs().mean()` is `0`, strictly below `epsilon = 1e-6`
(Variant A applies no epsilon floor to `beta`), so the claimed floor
`beta >= epsilon` fails for Variant A. -/
theorem variantA_beta_unfloored_counterexample :
    (BitLinear.quantize_weights [[0, 0], [0, 0]] (1/1000000)).2 = 0 ∧
    (BitLinear.quantize_weights [[0, 0], [0, 0]] (1/1000000)).2 <
      1/1000000 := by
  constructor
  · decide
  · decide

/-- C1 (amended): `gamma` is floored at `epsilon` in every activation
quantizer and equals `epsilon` for an all-zero input; Variant B's `beta` is
floored at `epsilon` and equals `epsilon` for an all-zero weight; Variant
A's `beta` is `mean(|weight|)` with no floor and equals `0` for an all-zero
weight. -/
theorem scale_floor_amended (w x : List (List ℚ)) (Qb epsilon : ℚ)
    (heps : 0 ≤ epsilon) :
    epsilon ≤ (BitLinear158b.quantize_weights w epsilon).2 ∧
    ((∀ r ∈ w, ∀ v ∈ r, v = 0) →
      (BitLinear158b.quantize_weights w epsilon).2 = epsilon) ∧
    epsilon ≤ (BitLinear.absmax_quantize true x Qb epsilon).2 ∧
    epsilon ≤ (BitLinear.absmax_quantize false x Qb epsilon).2 ∧
    ((∀ r ∈ x, ∀ v ∈ r, v = 0) →
      (BitLinear.absmax_quantize true x Qb epsilon).2 = epsilon) ∧
    (∀ g ∈ (BitLinear158b.absmax_quantize x Qb epsilon).2, epsilon ≤ g) ∧
    (BitLinear.quantize_weights w epsilon).2 = tmean (tabs w) ∧
    ((∀ r ∈ w, ∀ v ∈ r, v = 0) →
      (BitLinear.quantize_weights w epsilon).2 = 0) := by
  refine ⟨le_max_right _ _, ?_, le_max_right _ _, le_max_right _ _, ?_, ?_,
    rfl, ?_⟩
  · intro hz
    show max (tmean (tabs w)) epsilon = epsilon
    rw [tmean_tabs_all_zero w hz, max_eq_right heps]
  · intro hz
    show max (gmax (tabs x)) epsilon = epsilon
    rw [gmax_tabs_all_zero x hz, max_eq_right heps]
  · intro g hg
    rcases List.mem_map.mp hg with ⟨row, _, rfl⟩
    exact le_max_right _ _
  · intro hz
    show tmean (tabs w) = 0
    exact tmean_tabs_all_zero w hz

/-- C1 witness: at the all-zero `1 x 1` weight and input with
`epsilon = 1e-6`, Variant B's `beta` and the symmetric `gamma` equal
`epsilon` exactly while Variant A's `beta` is `0`. -/
theorem scale_floor_amended_witness :
    (1/1000000 : ℚ) ≤ (BitLinear158b.quantize_weights [[0]] (1/1000000)).2 ∧
    (BitLinear158b.quantize_weights [[0]] (1/1000000)).2 = 1/1000000 ∧
    (BitLinear.absmax_quantize true [[0]] 2 (1/1000000)).2 = 1/1000000 ∧
    (BitLinear.quantize_weights [[0]] (1/1000000)).2 = 0 := by
  obtain ⟨h1, h2, h3, h4, h5, h6, h7, h8⟩ :=
    scale_floor_amended [[0]] [[0]] 2 (1/1000000) (by norm_num)
  exact ⟨h1, h2 (by simp), h5 (by simp), h8 (by simp)⟩

/-- C2: for every input tensor and integer `Qb >= 1`, the forward value of
the activation quantizer consists of integers in `[-Qb, Qb-1]` in the
symmetric modes (`BitLinear` with `flg_before_linear` true, and
`BitLinear158b`'s per-row mode) and in `[0, Qb-1]` in the shifted mode
(`flg_before_linear` false). -/
theorem activation_range (x : List (List ℚ)) (n : ℤ) (epsilon : ℚ)
    (hn : 1 ≤ n) :
    (∀ row ∈ (BitLinear.absmax_quantize true x (n : ℚ) epsilon).1,
      ∀ e ∈ row, ∃ z : ℤ, e = (z : ℚ) ∧ -(n : ℚ) ≤ e ∧ e ≤ (n : ℚ) - 1) ∧
    (∀ row ∈ (BitLinear.absmax_quantize false x (n : ℚ) epsilon).1,
      ∀ e ∈ row, ∃ z : ℤ, e = (z : ℚ) ∧ 0 ≤ e ∧ e ≤ (n : ℚ) - 1) ∧
    (∀ row ∈ (BitLinear158b.absmax_quantize x (n : ℚ) epsilon).1,
      ∀ e ∈ row, ∃ z : ℤ, e = (z : ℚ) ∧ -(n : ℚ) ≤ e ∧
        e ≤ (n : ℚ) - 1) := by
  refine ⟨?_, ?_, ?_⟩
  · intro row hrow e he
    simp only [BitLinear.absmax_quantize, if_pos] at hrow
    rcases List.mem_map.mp hrow with ⟨r0, _, rfl⟩
    rcases List.mem_map.mp he with ⟨v, _, rfl⟩
    exact symEntry_int_range n _ v hn
  · intro row hrow e he
    simp only [BitLinear.absmax_quantize, if_neg] at hrow
    rcases List.mem_map.mp hrow with ⟨r0, _, rfl⟩
    rcases List.mem_map.mp he with ⟨v, _, rfl⟩
    exact shiftEntry_int_range n _ _ v hn
  · intro row hrow e he
    simp only [BitLinear158b.absmax_quantize] at hrow
    rcases List.mem_iff_getElem.mp hrow with ⟨i, hlen, hi⟩
    rw [← hi] at he
    rw [List.getElem_zipWith] at he
    rcases List.mem_map.mp he with ⟨v, _, rfl⟩
    exact symEntry_int_range n _ v hn

/-- C2 witness: the spec scenario `x = [1, -4, 2]`, `Qb = 4`: the first
quantized entry is the integer `1`, inside `[-4, 3]`. -/
theorem activation_range_witness :
    ∃ z : ℤ, (1 : ℚ) = (z : ℚ) ∧ -((4 : ℤ) : ℚ) ≤ (1 : ℚ) ∧
      (1 : ℚ) ≤ ((4 : ℤ) : ℚ) - 1 := by
  have h := (activation_range [[1, -4, 2]] 4 (1/1000000) (by norm_num)).1
    [1, -4, 2] (by decide) 1 (by decide)
  exact h

lemma getD_lt {α : Type} (l : List α) (d : α) (i : ℕ) (h : i < l.length) :
    l.getD i d = l[i] := by
  simp [List.getD_eq_getElem?_getD, List.getElem?_eq_getElem h]

lemma absmax_quantize_fst_length (flg : Bool) (x : List (List ℚ))
    (Qb epsilon : ℚ) :
    (BitLinear.absmax_quantize flg x Qb epsilon).1.length = x.length := by
  cases flg <;> simp [BitLinear.absmax_quantize]

lemma quantize_weights_fst_length (w : List (List ℚ)) (epsilon : ℚ) :
    (BitLinear.quantize_weights w epsilon).1.length = w.length := by
  simp [BitLinear.quantize_weights]

lemma functionalLinear_entry (A W : List (List ℚ)) (bias : Option (List ℚ))
    (bi oi : ℕ) (hb : bi < A.length) (ho : oi < W.length)
    (hbl : ∀ bl, bias = some bl → W.length ≤ bl.length) :
    ∃ hrow : bi < (functionalLinear A W bias).length,
      ∃ hcol : oi < (functionalLinear A W bias)[bi].length,
        (functionalLinear A W bias)[bi][oi] =
          dot A[bi] W[oi] +
            (bias.getD (List.replicate W.length 0)).getD oi 0 := by
  cases bias with
  | none =>
      refine ⟨by simpa [functionalLinear] using hb, ?_, ?_⟩
      · simpa [functionalLinear] using ho
      · simp [functionalLinear, List.getD_eq_getElem?_getD,
          List.getElem?_eq_getElem, ho]
  | some bl =>
      have hbl' : W.length ≤ bl.length := hbl bl rfl
      refine ⟨by simpa [functionalLinear] using hb, ?_, ?_⟩
      · simp only [functionalLinear, List.getElem_map, List.length_zipWith]
        omega
      · have hoibl : oi < bl.length := lt_of_lt_of_le ho hbl'
        simp [functionalLinear, List.getD_eq_getElem?_getD,
          List.getElem?_eq_getElem, hoibl]

/-- C7 counterexample: constructing `BitLinear` with `bits = 0` succeeds
(no exception of any kind is raised) and silently produces the degenerate
`Qb = 2 ** (-1) = 1/2`; no `InvalidConfig` check exists. -/
theorem init_no_validation_counterexample :
    BitLinear.init 3 2 false (1/1000000) 0 true =
      { in_features := 3, out_features := 2, bias := false, bits := 0,
        Qb := 1/2, flg_before_linear := true, epsilon := 1/1000000 } := by
  rw [BitLinear.init]
  congr 1

/-- C7 (amended): construction performs no parameter validation and never
raises: for every argument list (including `bits <= 0`) the constructors
return the configuration with `Qb = 2 ** (bits - 1)` and hardcoded
`epsilon = 1e-6`; `epsilon` is not even a constructor parameter, and any
failure for a negative feature count would arise inside the external
`nn.Linear` allocation, not from an `InvalidConfig` check in this code. -/
theorem init_no_validation (i o : ℤ) (b : Bool) (e : ℚ) (bits : ℤ)
    (flg : Bool) :
    BitLinear.init i o b e bits flg =
      { in_features := i, out_features := o, bias := b, bits := bits,
        Qb := (2 : ℚ) ^ (bits - 1), flg_before_linear := flg,
        epsilon := 1/1000000 } ∧
    BitLinear158b.init i o b e bits =
      { in_features := i, out_features := o, bias := b, bits := bits,
        Qb := (2 : ℚ) ^ (bits - 1), epsilon := 1/1000000 } :=
  ⟨rfl, rfl⟩

/-- C8 counterexample: the only epsilon-like constructor argument,
`rms_norm_eps`, does not set the epsilon used by the layer: constructing
with `rms_norm_eps = 5` leaves `self.epsilon` at the hardcoded `1e-6`. -/
theorem epsilon_not_configurable_counterexample :
    (BitLinear.init 2 2 false 5 8 true).epsilon = 1/1000000 ∧
    (BitLinear.init 2 2 false 5 8 true).epsilon ≠ 5 := by
  refine ⟨rfl, ?_⟩
  decide

/-- C8 (amended): `epsilon` is hardcoded to `1e-6` and is not settable at
construction (the constructor's `rms_norm_eps`, default `1e-6`, is never
used); the hardcoded value is the floor entering the forward pass's scale
computations (`gamma` of both variants and Variant B's `beta`). -/
theorem epsilon_hardcoded (i o : ℤ) (b : Bool) (e : ℚ) (bits : ℤ)
    (flg : Bool) (x : List (List ℚ)) :
    (BitLinear.init i o b e bits flg).epsilon = 1/1000000 ∧
    (BitLinear158b.init i o b e bits).epsilon = 1/1000000 ∧
    1/1000000 ≤ (BitLinear.absmax_quantize flg
        (x.map (layerNormRow (1/100000)))
        (BitLinear.init i o b e bits flg).Qb
        (BitLinear.init i o b e bits flg).epsilon).2 ∧
    1/1000000 ≤ (BitLinear158b.quantize_weights x
        (BitLinear158b.init i o b e bits).epsilon).2 := by
  refine ⟨rfl, rfl, ?_, le_max_right _ _⟩
  cases flg <;> exact le_max_right _ _

/-- C10: the `rms_norm_eps` construction argument is accepted by both
constructors but never used: two instances differing only in
`rms_norm_eps` are identical and produce identical forward outputs on
every input. -/
theorem rms_norm_eps_unused (i o : ℤ) (b : Bool) (e1 e2 : ℚ) (bits : ℤ)
    (flg : Bool) (w : List (List ℚ)) (bias : Option (List ℚ))
    (x : List (List ℚ)) :
    BitLinear.forward (BitLinear.init i o b e1 bits flg) w bias x =
      BitLinear.forward (BitLinear.init i o b e2 bits flg) w bias x ∧
    BitLinear158b.forward (BitLinear158b.init i o b e1 bits) w bias x =
      BitLinear158b.forward (BitLinear158b.init i o b e2 bits) w bias x ∧
    BitLinear.init i o b e1 bits flg = BitLinear.init i o b e2 bits flg ∧
    BitLinear158b.init i o b e1 bits = BitLinear158b.init i o b e2 bits :=
  ⟨rfl, rfl, rfl, rfl⟩

lemma map_scale_entry (m : List (List ℚ)) (s : ℚ) (bi oi : ℕ)
    (hb : bi < m.length) (ho : oi < m[bi].length) :
    ((m.map (List.map (fun v => v * s))).getD bi []).getD oi 0 =
      m[bi][oi] * s := by
  have h1 : (m.map (List.map fun v => v * s)).getD bi [] =
      m[bi].map (fun v => v * s) := by
    rw [getD_lt _ _ _ (by simpa using hb), List.getElem_map]
  rw [h1, getD_lt _ _ _ (by simpa using ho), List.getElem_map]

/-- C6: for every input whose rows are indexed within bounds, the forward
pass returns exactly `(matmul(x_q, w_q^T) + bias) * (beta * gamma / Qb)`
entrywise, where `(x_q, gamma)` is the activation quantizer applied to the
layer-normalized input and `(w_q, beta)` the weight quantizer applied to
the stored weight; no clamping is applied after this rescaling. -/
theorem forward_dequantization (cfg : BitLinearCfg) (w : List (List ℚ))
    (bias : Option (List ℚ)) (x : List (List ℚ)) (bi oi : ℕ)
    (hb : bi < x.length) (ho : oi < w.length)
    (hbl : ∀ bl, bias = some bl → w.length ≤ bl.length) :
    ((BitLinear.forward cfg w bias x).getD bi []).getD oi 0 =
      (dot ((BitLinear.absmax_quantize cfg.flg_before_linear
            (x.map (layerNormRow (1/100000))) cfg.Qb cfg.epsilon).1.getD bi
            [])
          ((BitLinear.quantize_weights w cfg.epsilon).1.getD oi []) +
          (bias.getD (List.replicate w.length 0)).getD oi 0) *
        ((BitLinear.quantize_weights w cfg.epsilon).2 *
          (BitLinear.absmax_quantize cfg.flg_before_linear
            (x.map (layerNormRow (1/100000))) cfg.Qb cfg.epsilon).2 /
          cfg.Qb) := by
  have hAlen : (BitLinear.absmax_quantize cfg.flg_before_linear
      (x.map (layerNormRow (1/100000))) cfg.Qb cfg.epsilon).1.length =
      x.length := by
    rw [absmax_quantize_fst_length, List.length_map]
  have hWlen := quantize_weights_fst_length w cfg.epsilon
  have hb' : bi < (BitLinear.absmax_quantize cfg.flg_before_linear
      (x.map (layerNormRow (1/100000))) cfg.Qb cfg.epsilon).1.length := by
    rw [hAlen]; exact hb
  have ho' : oi < (BitLinear.quantize_weights w cfg.epsilon).1.length := by
    rw [hWlen]; exact ho
  have hbl' : ∀ bl, bias = some bl →
      (BitLinear.quantize_weights w cfg.epsilon).1.length ≤ bl.length :=
    fun bl h => hWlen ▸ hbl bl h
  obtain ⟨h1, h2, h3⟩ := functionalLinear_entry _ _ bias bi oi hb' ho' hbl'
  simp only [BitLinear.forward]
  rw [map_scale_entry _ _ bi oi h1 h2, h3, hWlen]
  rw [getD_lt _ _ _ hb', getD_lt _ _ _ ho']

/-- C6 witness: the forward formula evaluated at a concrete layer, weight,
bias and input. -/
theorem forward_dequantization_witness :
    ((BitLinear.forward (BitLinear.init 2 1 false (1/1000000) 8 true)
        [[1, 1]] (some [5]) [[1, 2]]).getD 0 []).getD 0 0 =
      (dot ((BitLinear.absmax_quantize
            (BitLinear.init 2 1 false (1/1000000) 8 true).flg_before_linear
            ([[1, 2]].map (layerNormRow (1/100000)))
            (BitLinear.init 2 1 false (1/1000000) 8 true).Qb
            (BitLinear.init 2 1 false (1/1000000) 8 true).epsilon).1.getD 0
            [])
          ((BitLinear.quantize_weights [[1, 1]]
            (BitLinear.init 2 1 false (1/1000000) 8 true).epsilon).1.getD 0
            []) +
          ((some [5] : Option (List ℚ)).getD
            (List.replicate ([[1, 1]] : List (List ℚ)).length 0)).getD 0
            0) *
        ((BitLinear.quantize_weights [[1, 1]]
            (BitLinear.init 2 1 false (1/1000000) 8 true).epsilon).2 *
          (BitLinear.absmax_quantize
            (BitLinear.init 2 1 false (1/1000000) 8 true).flg_before_linear
            ([[1, 2]].map (layerNormRow (1/100000)))
            (BitLinear.init 2 1 false (1/1000000) 8 true).Qb
            (BitLinear.init 2 1 false (1/1000000) 8 true).epsilon).2 /
          (BitLinear.init 2 1 false (1/1000000) 8 true).Qb) :=
  forward_dequantization _ _ _ _ 0 0 (by norm_num) (by norm_num)
    (fun bl h => by cases h; norm_num)

lemma abs_sub_roundTorch (q : ℚ) : |q - (roundTorch q : ℚ)| ≤ 1/2 := by
  rw [roundTorch]
  split_ifs with htie heven
  · have hfr : q - (⌊q⌋ : ℚ) = 1/2 := by rw [Int.self_sub_floor, htie]
    rw [show |q - (⌊q⌋ : ℚ)| = 1/2 by rw [hfr]; norm_num]
  · have hfr : q - (⌊q⌋ : ℚ) = 1/2 := by rw [Int.self_sub_floor, htie]
    have : q - ((⌊q⌋ + 1 : ℤ) : ℚ) = -(1/2) := by push_cast; linarith
    rw [this, abs_neg, abs_of_nonneg (by norm_num : (0:ℚ) ≤ 1/2)]
  · exact abs_sub_round q

lemma roundTorch_nearest (q : ℚ) (z : ℤ) :
    |q - (roundTorch q : ℚ)| ≤ |q - (z : ℚ)| := by
  by_cases hz : z = roundTorch q
  · rw [hz]
  · have hne : roundTorch q - z ≠ 0 := sub_ne_zero.mpr (Ne.symm hz)
    have h1 : (1 : ℤ) ≤ |roundTorch q - z| := Int.one_le_abs hne
    have h1q : (1 : ℚ) ≤ |(roundTorch q : ℚ) - (z : ℚ)| := by
      have : ((|roundTorch q - z| : ℤ) : ℚ) = |(roundTorch q : ℚ) - z| := by
        push_cast
        rfl
      rw [← this]
      exact_mod_cast h1
    have h2 := abs_sub_roundTorch q
    have tri : |(roundTorch q : ℚ) - (z : ℚ)| ≤
        |(roundTorch q : ℚ) - q| + |q - (z : ℚ)| := abs_sub_le _ q _
    have hcomm : |(roundTorch q : ℚ) - q| = |q - (roundTorch q : ℚ)| :=
      abs_sub_comm _ _
    linarith

lemma symEntry_eq_clamped (n : ℤ) (g v : ℚ) :
    symEntry (n : ℚ) g v =
      ((min (max (roundTorch (v * n / g)) (-n)) (n - 1) : ℤ) : ℚ) := by
  rw [symEntry, ste_id]
  have h1 : (-(n : ℚ)) = ((-n : ℤ) : ℚ) := by push_cast; ring
  have h2 : ((n : ℚ) - 1) = ((n - 1 : ℤ) : ℚ) := by push_cast; ring
  rw [h1, h2, rclamp_int_cast]

lemma residual_scaled (v g m q : ℚ) (hm : 0 < m) (hg : 0 < g) :
    |v - q * g / m| = |v * m / g - q| * (g / m) := by
  have key : v - q * g / m = (v * m / g - q) * (g / m) := by
    field_simp
    ring
  rw [key, abs_mul, abs_of_pos (div_pos hg hm)]

lemma symEntry_residual_halving (g v : ℚ) (n : ℤ) (hg : 0 < g)
    (hv : |v| ≤ g) (hn : 1 ≤ n) :
    |v - symEntry ((2 * n : ℤ) : ℚ) g v * g / ((2 * n : ℤ) : ℚ)| ≤
      |v - symEntry (n : ℚ) g v * g / (n : ℚ)| := by
  have hnq : (0 : ℚ) < (n : ℚ) := by exact_mod_cast lt_of_lt_of_le one_pos hn
  have h2nq : (0 : ℚ) < ((2 * n : ℤ) : ℚ) := by
    exact_mod_cast (by omega : (0 : ℤ) < 2 * n)
  set s := v * (n : ℚ) / g with hs
  have hs2 : v * ((2 * n : ℤ) : ℚ) / g = 2 * s := by rw [hs]; push_cast; ring
  set R1 := roundTorch s with hR1
  set R2 := roundTorch (2 * s) with hR2
  have hround1 : |s - (R1 : ℚ)| ≤ 1/2 := abs_sub_roundTorch s
  have hround2 : |2 * s - (R2 : ℚ)| ≤ 1/2 := abs_sub_roundTorch (2 * s)
  have habs_s : |s| ≤ (n : ℚ) := by
    have h := mul_le_mul_of_nonneg_right hv (le_of_lt hnq)
    rw [hs, abs_div, abs_mul, abs_of_pos hg, abs_of_pos hnq, div_le_iff₀ hg]
    linarith
  have hR1lb : -n ≤ R1 := by
    have hc : ((-n - 1 : ℤ) : ℚ) < (R1 : ℚ) := by
      push_cast
      linarith [(abs_le.mp hround1).2, (abs_le.mp habs_s).1]
    have : (-n - 1 : ℤ) < R1 := by exact_mod_cast hc
    omega
  have hR2lb : -(2 * n) ≤ R2 := by
    have habs2 : |2 * s| ≤ 2 * (n : ℚ) := by
      rw [abs_mul]
      norm_num
      linarith [habs_s]
    have hc : ((-(2 * n) - 1 : ℤ) : ℚ) < (R2 : ℚ) := by
      push_cast
      linarith [(abs_le.mp hround2).2, (abs_le.mp habs2).1]
    have : (-(2 * n) - 1 : ℤ) < R2 := by exact_mod_cast hc
    omega
  set q1 : ℤ := min (max R1 (-n)) (n - 1) with hq1
  set q2 : ℤ := min (max R2 (-(2 * n))) (2 * n - 1) with hq2
  have hq1' : q1 = min R1 (n - 1) := by rw [hq1, max_eq_left hR1lb]
  have hq2' : q2 = min R2 (2 * n - 1) := by rw [hq2, max_eq_left hR2lb]
  have hkey : |2 * s - (q2 : ℚ)| ≤ 2 * |s - (q1 : ℚ)| := by
    by_cases hcase : R2 ≤ 2 * n - 1
    · have hq2eq : q2 = R2 := by rw [hq2', min_eq_left hcase]
      rw [hq2eq]
      have hnear := roundTorch_nearest (2 * s) (2 * q1)
      rw [← hR2] at hnear
      calc |2 * s - (R2 : ℚ)| ≤ |2 * s - ((2 * q1 : ℤ) : ℚ)| := hnear
        _ = 2 * |s - (q1 : ℚ)| := by
            push_cast
            rw [show (2 : ℚ) * s - 2 * (q1 : ℚ) = 2 * (s - (q1 : ℚ)) by ring,
              abs_mul]
            norm_num
    · push_neg at hcase
      have hR2ge : 2 * n ≤ R2 := by omega
      have hq2eq : q2 = 2 * n - 1 := by
        rw [hq2', min_eq_right (by omega)]
      have hs_lb : (n : ℚ) - 1/4 ≤ s := by
        have hcast : ((2 * n : ℤ) : ℚ) ≤ (R2 : ℚ) := by exact_mod_cast hR2ge
        push_cast at hcast
        linarith [(abs_le.mp hround2).1]
      have hs_ub : s ≤ (n : ℚ) := (abs_le.mp habs_s).2
      have hR1eq : R1 = n := by
        have h1 : R1 ≤ n := by
          have hc : (R1 : ℚ) < (n : ℚ) + 1 := by
            linarith [(abs_le.mp hround1).1]
          have : R1 < n + 1 := by exact_mod_cast hc
          omega
        have h2 : n - 1 < R1 := by
          have hc : ((n - 1 : ℤ) : ℚ) < (R1 : ℚ) := by
            push_cast
            linarith [(abs_le.mp hround1).2]
          exact_mod_cast hc
        omega
      have hq1eq : q1 = n - 1 := by
        rw [hq1', hR1eq, min_eq_right (by omega)]
      rw [hq1eq, hq2eq]
      have e1 : ((2 * n - 1 : ℤ) : ℚ) = 2 * (n : ℚ) - 1 := by push_cast; ring
      have e2 : ((n - 1 : ℤ) : ℚ) = (n : ℚ) - 1 := by push_cast; ring
      rw [e1, e2]
      rw [abs_of_nonneg (by linarith), abs_of_nonneg (by linarith)]
      linarith
  have hval1 : symEntry (n : ℚ) g v = (q1 : ℚ) := by
    rw [symEntry_eq_clamped, ← hs, ← hR1, ← hq1]
  have hval2 : symEntry ((2 * n : ℤ) : ℚ) g v = (q2 : ℚ) := by
    have h := symEntry_eq_clamped (2 * n) g v
    rw [hs2, ← hR2] at h
    rw [h, ← hq2]
  rw [hval1, hval2]
  rw [residual_scaled v g ((2 * n : ℤ) : ℚ) (q2 : ℚ) h2nq hg,
    residual_scaled v g ((n : ℤ) : ℚ) (q1 : ℚ) hnq hg]
  rw [hs2, ← hs]
  have e3 : g / ((2 * n : ℤ) : ℚ) = g / (n : ℚ) / 2 := by
    push_cast
    rw [mul_comm]
    rw [div_div]
  calc |2 * s - (q2 : ℚ)| * (g / ((2 * n : ℤ) : ℚ))
      = |2 * s - (q2 : ℚ)| * (g / (n : ℚ) / 2) := by rw [e3]
    _ ≤ 2 * |s - (q1 : ℚ)| * (g / (n : ℚ) / 2) := by
        have hpos : (0 : ℚ) ≤ g / (n : ℚ) / 2 := by positivity
        exact mul_le_mul_of_nonneg_right hkey hpos
    _ = |s - (q1 : ℚ)| * (g / (n : ℚ)) := by ring

set_option maxRecDepth 100000 in
/-- C9 counterexample: for the fixed input `[[9/2000, -9/2000]]` (whose
LayerNorm output is exactly `[[9/11, -9/11]]`) and fixed weight `[[7, 1]]`,
the mean absolute difference between the dequantized forward output and the
unquantized reference output is `0` at `bits = 2` but `9/11` at `bits = 3`:
the error strictly increases when `bits` increases. -/
theorem error_monotonicity_counterexample :
    meanAbsDiff
        (BitLinear.forward (BitLinear.init 2 1 false (1/1000000) 2 true)
          [[7, 1]] none [[9/2000, -9/2000]])
        (referenceForward [[7, 1]] none [[9/2000, -9/2000]]) <
      meanAbsDiff
        (BitLinear.forward (BitLinear.init 2 1 false (1/1000000) 3 true)
          [[7, 1]] none [[9/2000, -9/2000]])
        (referenceForward [[7, 1]] none [[9/2000, -9/2000]]) := by
  decide

/-- C9 (amended): the end-to-end mean absolute dequantization error is not
monotone in `bits` (see the counterexample); what is non-increasing when
`bits` grows by one (`Qb` doubles) is each entry's activation
reconstruction error `|v - x_q * gamma / Qb|` for the symmetric quantizer
entry map, for every entry `v` within the quantizer's scale `gamma` —
which every tensor entry is, as the second conjunct shows. -/
theorem activation_residual_monotone (x : List (List ℚ)) (Qb epsilon : ℚ)
    (g v : ℚ) (n : ℤ) (hg : 0 < g) (hv : |v| ≤ g) (hn : 1 ≤ n) :
    |v - symEntry ((2 * n : ℤ) : ℚ) g v * g / ((2 * n : ℤ) : ℚ)| ≤
      |v - symEntry (n : ℚ) g v * g / (n : ℚ)| ∧
    (∀ row ∈ x, ∀ u ∈ row,
      |u| ≤ (BitLinear.absmax_quantize true x Qb epsilon).2) := by
  refine ⟨symEntry_residual_halving g v n hg hv hn, ?_⟩
  intro row hrow u hu
  have hmem : |u| ∈ (tabs x).flatten := by
    refine List.mem_flatten.mpr ⟨row.map (fun t => |t|), ?_, ?_⟩
    · exact List.mem_map.mpr ⟨row, hrow, rfl⟩
    · exact List.mem_map.mpr ⟨u, hu, rfl⟩
  have h1 : |u| ≤ gmax (tabs x) := le_lmax_of_mem hmem
  have h2 : (BitLinear.absmax_quantize true x Qb epsilon).2 =
      max (gmax (tabs x)) epsilon := by
    simp [BitLinear.absmax_quantize]
  rw [h2]
  exact le_trans h1 (le_max_left _ _)

/-- C9 witness: the amended statement evaluated at `v = 1/3`, `gamma = 1`,
`Qb = 1` versus `Qb = 2` (residuals `1/3` and `1/6`), and the scale bound
at a concrete tensor. -/
theorem activation_residual_monotone_witness :
    |(1 : ℚ)/3 - symEntry ((2 * 1 : ℤ) : ℚ) 1 (1/3) * 1 /
        ((2 * 1 : ℤ) : ℚ)| ≤
      |(1 : ℚ)/3 - symEntry ((1 : ℤ) : ℚ) 1 (1/3) * 1 / ((1 : ℤ) : ℚ)| ∧
    |(1 : ℚ)| ≤ (BitLinear.absmax_quantize true [[1]] 4 (1/2)).2 := by
  obtain ⟨h1, h2⟩ := activation_residual_monotone [[1]] 4 (1/2) 1 (1/3) 1
    (by norm_num) (by rw [abs_of_pos] <;> norm_num) (by norm_num)
  exact ⟨h1, h2 [1] (by simp) 1 (by simp)⟩

end BitNetVerification
